import Mathlib

/-!
Shallow embedding of `performance/runner/src/calculate.rs` (dbt performance
regression calculator) and proofs about it.

Modelling conventions:
* Rust `f64` values are embedded as `ℚ` (the claims under study are exact
  arithmetic/comparison relations; no claim depends on NaN or rounding).
* `DateTime<Utc>` timestamps are embedded as `Int` (only carried, never
  inspected).
* The `&str` handled by the custom `Version` (de)serializer is embedded as
  `List Char`; `String.splitOn "."` of Rust's `split(".")` becomes `splitDot`.
* A Rust `panic!` is embedded as the `RunResult.aborted` constructor, to keep
  it distinguishable from a recoverable `Result::Err`.
* The `HashMap` built by `collect()` on line 158-159 of calculate.rs is
  embedded as an association list built by a left fold that prepends each
  entry; lookup takes the first (i.e. most recently inserted) match, which is
  observationally the `HashMap::get` of a map built with last-write-wins
  inserts.
-/

namespace DbtPerf

/-- Embeds the Rust struct `Measurement` (hyperfine output element). -/
structure Measurement where
  command : String
  mean : ℚ
  stddev : ℚ
  median : ℚ
  user : ℚ
  system : ℚ
  min : ℚ
  max : ℚ
  times : List ℚ
  deriving DecidableEq

/-- Embeds the Rust struct `Measurements` (full hyperfine output). -/
structure Measurements where
  results : List Measurement
  deriving DecidableEq

/-- Embeds the Rust struct `Version` ("major.minor.patch"); the Rust fields
are `i32`, embedded as `Int` with explicit range conditions where they
matter. -/
structure Version where
  major : Int
  minor : Int
  patch : Int
  deriving DecidableEq

/-- Embeds the derived lexicographic `Ord` on `Version` (field order:
major, minor, patch), as the boolean test `a <= b`. -/
def vle (a b : Version) : Bool :=
  decide (a.major < b.major ∨ (a.major = b.major ∧
    (a.minor < b.minor ∨ (a.minor = b.minor ∧ a.patch ≤ b.patch))))

/-- Embeds the Rust struct `BaselineMetric`. -/
structure BaselineMetric where
  project : String
  metric : String
  ts : Int
  measurement : Measurement
  deriving DecidableEq

/-- Embeds the Rust struct `Baseline`. -/
structure Baseline where
  version : Version
  metrics : List BaselineMetric
  deriving DecidableEq

/-- Embeds the Rust struct `Sample`. -/
structure Sample where
  project : String
  metric : String
  value : ℚ
  ts : Int
  deriving DecidableEq

/-- Embeds the Rust struct `Calculation`. -/
structure Calculation where
  version : Version
  project : String
  metric : String
  regression : Bool
  ts : Int
  sigma : ℚ
  mean : ℚ
  stddev : ℚ
  threshold : ℚ
  deriving DecidableEq

/-- Result of running a piece of Rust code that may `panic!`: `ok` is a
normal return, `aborted msg` is a panic with the given message.  The source
has no recoverable-error return in the fragments embedded here. -/
inductive RunResult (α : Type) where
  | ok : α → RunResult α
  | aborted : String → RunResult α
  deriving DecidableEq

/-- Embeds `Sample::from_measurement` (calculate.rs lines 87-101): a match
on the `times` slice; the empty and the more-than-one cases `panic!`. -/
def from_measurement (project metric : String) (ts : Int)
    (measurement : Measurement) : RunResult Sample :=
  match measurement.times with
  | [] => RunResult.aborted "found a sample with no measurement"
  | [x] => RunResult.ok { project := project, metric := metric, value := x, ts := ts }
  | _ => RunResult.aborted "found a sample with too many measurements!"

/-- Embeds the closure body of `calculate_regressions` (calculate.rs lines
161-180): the `Calculation` built for one matched baseline metric. -/
def calcOne (version : Version) (sigma : ℚ) (metric : BaselineMetric)
    (value : ℚ) (ts : Int) : Calculation :=
  let model := metric.measurement
  let threshold := model.mean + sigma * model.stddev
  { version := version
    project := metric.project
    metric := metric.metric
    regression := decide (value > threshold)
    ts := ts
    sigma := sigma
    mean := model.mean
    stddev := model.stddev
    threshold := threshold }

/-- Embeds the `m_samples` HashMap build (calculate.rs lines 158-159): each
sample is inserted in iteration order; prepending to an association list and
reading the first match below gives the `HashMap` last-write-wins get. -/
def m_samples (samples : List Sample) : List ((String × String) × (ℚ × Int)) :=
  samples.foldl (fun m x => ((x.project, x.metric), (x.value, x.ts)) :: m) []

/-- Embeds `HashMap::get` on the association-list embedding of the map. -/
def hmGet (m : List ((String × String) × (ℚ × Int))) (k : String × String) :
    Option (ℚ × Int) :=
  (m.find? (fun e => e.1 == k)).map (fun e => e.2)

/-- Embeds `calculate_regressions` (calculate.rs lines 156-181):
`filter_map` over the baseline's metrics, keeping those whose
(project, metric) key is found among the samples. -/
def calculate_regressions (samples : List Sample) (baseline : Baseline)
    (sigma : ℚ) : List Calculation :=
  let m := m_samples samples
  baseline.metrics.filterMap (fun metric =>
    (hmGet m (metric.project, metric.metric)).map
      (fun vt => calcOne baseline.version sigma metric vt.1 vt.2))

/-- Decimal digits with explicit fuel (any fuel above the number of digits
gives the digits of `n`, most significant first); structural recursion on the
fuel keeps the definition kernel-reducible. -/
def natToDigitsAux : Nat → Nat → List Char
  | 0, _ => []
  | fuel + 1, n =>
    if n < 10 then [Char.ofNat (48 + n)]
    else natToDigitsAux fuel (n / 10) ++ [Char.ofNat (48 + n % 10)]

/-- Decimal digits of a natural number, most significant first; the digit
sequence `format!` produces for a non-negative integer. -/
def natToDigits (n : Nat) : List Char := natToDigitsAux (n + 1) n

/-- Embeds Rust `format!("{}", i)` for an integer: optional minus sign
followed by the decimal digits of the absolute value. -/
def intToText (n : Int) : List Char :=
  if n < 0 then '-' :: natToDigits n.natAbs else natToDigits n.natAbs

/-- Embeds the `Serialize` impl for `Version` (calculate.rs lines 119-126):
`format!("{}.{}.{}", major, minor, patch)`. -/
def toText (v : Version) : List Char :=
  intToText v.major ++ ('.' :: (intToText v.minor ++ ('.' :: intToText v.patch)))

/-- Sign handling of Rust `i32::from_str`: strip one leading `-` (negative)
or `+` (positive); anything else leaves the input unchanged. -/
def splitSign (s : List Char) : Bool × List Char :=
  match s with
  | [] => (false, [])
  | c :: cs =>
    if c = '-' then (true, cs)
    else if c = '+' then (false, cs)
    else (false, c :: cs)

/-- The accumulator step of decimal parsing: previous value times ten plus
the value of the next digit character. -/
def digitStep (acc : Nat) (c : Char) : Nat :=
  acc * 10 + (c.toNat - 48)

/-- Embeds Rust `str::parse::<i32>`: optional sign, then a non-empty run of
ASCII digits, with the resulting value required to fit in `i32`; `none` is
the `Err` of the Rust parse. -/
def parseI32 (s : List Char) : Option Int :=
  let p := splitSign s
  let ds := p.2
  if ds.isEmpty then none
  else if ds.all Char.isDigit then
    let n : Nat := ds.foldl digitStep 0
    let v : Int := if p.1 then -(n : Int) else (n : Int)
    if -(2 ^ 31) ≤ v ∧ v ≤ 2 ^ 31 - 1 then some v else none
  else none

/-- Embeds Rust `str::split(".")`: the maximal run of dot-separated chunks,
so that the empty string yields one empty chunk and adjacent dots yield
empty chunks between them. -/
def splitDot : List Char → List (List Char)
  | [] => [[]]
  | c :: cs =>
    if c = '.' then [] :: splitDot cs
    else
      match splitDot cs with
      | [] => [[c]]
      | r :: rs => (c :: r) :: rs

/-- Embeds `.map(parse).collect::<Result<Vec<i32>, _>>()`: parse every chunk,
failing as soon as one chunk fails. -/
def collectParsed : List (List Char) → Option (List Int)
  | [] => some []
  | c :: cs =>
    match parseI32 c with
    | none => none
    | some v =>
      match collectParsed cs with
      | none => none
      | some vs => some (v :: vs)

/-- Embeds the `Deserialize` impl for `Version` (calculate.rs lines 129-153):
split on dots, parse every chunk as `i32` (failing on the first parse error),
then require exactly three components. -/
def fromText (s : List Char) : Except String Version :=
  match collectParsed (splitDot s) with
  | none => Except.error "invalid digit found in string"
  | some [a, b, c] => Except.ok { major := a, minor := b, patch := c }
  | some _ =>
    Except.error
      "Must be in the format \"major.minor.patch\" where each component is an integer."

/-- Embeds the baseline-selection block of `regressions` (calculate.rs lines
194-203): `panic!` on an empty collection, otherwise a left fold over the
whole collection starting from its first element, keeping the accumulator
unless the next version is strictly greater (`max.version >= next.version`). -/
def selectBaseline (baselines : List Baseline) : RunResult Baseline :=
  match baselines with
  | [] => RunResult.aborted "no baselines found in dir"
  | x :: _ =>
    RunResult.ok (baselines.foldl
      (fun mx next => if vle next.version mx.version then mx else next) x)

/-- The fold inside `selectBaseline`, named for the proofs below; definition
identical to the closure on calculate.rs lines 197-202. -/
def selFold (mx : Baseline) (l : List Baseline) : Baseline :=
  l.foldl (fun mx next => if vle next.version mx.version then mx else next) mx

/-- Concrete measurement matching the repository's own test fixture
(mean 1.00, stddev 0.1). -/
def exMeasurement : Measurement :=
  { command := "some command", mean := 1, stddev := 1/10, median := 1,
    user := 1, system := 1, min := 0, max := 2, times := [] }

/-- A second concrete measurement with different statistics (mean 100,
stddev 0). -/
def exMeasurement2 : Measurement :=
  { command := "some command", mean := 100, stddev := 0, median := 1,
    user := 1, system := 1, min := 0, max := 2, times := [] }

/-- Concrete baseline metric for project "test", metric "m". -/
def exMetric : BaselineMetric :=
  { project := "test", metric := "m", ts := 0, measurement := exMeasurement }

/-- Concrete baseline metric with the same (project, metric) key as
`exMetric` but different statistics. -/
def exMetric2 : BaselineMetric :=
  { project := "test", metric := "m", ts := 0, measurement := exMeasurement2 }

/-- Concrete baseline with a single metric. -/
def exBaseline : Baseline := { version := ⟨9, 9, 9⟩, metrics := [exMetric] }

/-- Concrete baseline holding two metrics with the same (project, metric)
key and different statistics. -/
def exDupBaseline : Baseline :=
  { version := ⟨1, 0, 0⟩, metrics := [exMetric, exMetric2] }

/-- Concrete sample for project "test", metric "m", value 1.31. -/
def exSample : Sample := { project := "test", metric := "m", value := 131/100, ts := 7 }

/-- Concrete sample for a second, distinct key ("test", "n"). -/
def exSampleB : Sample := { project := "test", metric := "n", value := 1, ts := 8 }

/-- Concrete sample with the same key as `exSample` but value 50. -/
def exSample50 : Sample := { project := "test", metric := "m", value := 50, ts := 9 }

/-- Concrete empty-metrics baseline at version 1.0.0. -/
def exB100 : Baseline := { version := ⟨1, 0, 0⟩, metrics := [] }

/-- Concrete empty-metrics baseline at version 2.0.0. -/
def exB200 : Baseline := { version := ⟨2, 0, 0⟩, metrics := [] }

/-- Concrete empty-metrics baseline at version 1.9.9. -/
def exB199 : Baseline := { version := ⟨1, 9, 9⟩, metrics := [] }

end DbtPerf

deriving instance DecidableEq for Except

namespace DbtPerf

/-- A digit character built from a value below ten satisfies `isDigit`. -/
theorem digitChar_isDigit {d : Nat} (h : d < 10) :
    (Char.ofNat (48 + d)).isDigit = true := by
  interval_cases d <;> decide

/-- Recovering the value of a digit character built from a value below ten. -/
theorem digitChar_toNat {d : Nat} (h : d < 10) :
    (Char.ofNat (48 + d)).toNat - 48 = d := by
  interval_cases d <;> decide

/-- A digit character is not a dot, a minus sign, or a plus sign. -/
theorem isDigit_ne (c : Char) (h : c.isDigit = true) :
    c ≠ '.' ∧ c ≠ '-' ∧ c ≠ '+' := by
  refine ⟨?_, ?_, ?_⟩ <;> (rintro rfl; exact absurd h (by decide))

/-- With enough fuel the digit list is never empty. -/
theorem natToDigitsAux_ne_nil :
    ∀ fuel n, n < fuel → natToDigitsAux fuel n ≠ [] := by
  intro fuel
  induction fuel with
  | zero => intro n h; omega
  | succ f ih =>
    intro n _
    simp only [natToDigitsAux]
    split
    · simp
    · simp

/-- Every character the digit-list builder emits is an ASCII digit. -/
theorem natToDigitsAux_all_digit :
    ∀ fuel n, ∀ c ∈ natToDigitsAux fuel n, c.isDigit = true := by
  intro fuel
  induction fuel with
  | zero => intro n c hc; simp [natToDigitsAux] at hc
  | succ f ih =>
    intro n c hc
    simp only [natToDigitsAux] at hc
    split at hc
    case isTrue h =>
      simp only [List.mem_singleton] at hc
      subst hc
      exact digitChar_isDigit h
    case isFalse h =>
      rw [List.mem_append] at hc
      rcases hc with hc | hc
      · exact ih _ c hc
      · simp only [List.mem_singleton] at hc
        subst hc
        exact digitChar_isDigit (Nat.mod_lt _ (by omega))

/-- Folding the decimal accumulator over the digits of `n` recovers `n`. -/
theorem natToDigitsAux_foldl :
    ∀ fuel n acc, n < fuel →
      (natToDigitsAux fuel n).foldl digitStep acc =
        acc * 10 ^ (natToDigitsAux fuel n).length + n := by
  intro fuel
  induction fuel with
  | zero => intro n acc h; omega
  | succ f ih =>
    intro n acc h
    simp only [natToDigitsAux]
    split
    case isTrue hlt =>
      simp only [List.foldl_cons, List.foldl_nil, List.length_singleton,
        pow_one, digitStep, digitChar_toNat hlt]
    case isFalse hge =>
      have hn : n / 10 < f := by
        have h1 : n / 10 < n := Nat.div_lt_self (by omega) (by omega)
        omega
      rw [List.foldl_append, ih _ acc hn]
      simp only [List.foldl_cons, List.foldl_nil, List.length_append,
        List.length_singleton, digitStep,
        digitChar_toNat (Nat.mod_lt n (by omega))]
      have heq : (acc * 10 ^ (natToDigitsAux f (n / 10)).length + n / 10) * 10
          + n % 10 =
          acc * (10 ^ (natToDigitsAux f (n / 10)).length * 10)
            + (10 * (n / 10) + n % 10) := by ring
      rw [heq, Nat.div_add_mod, pow_succ]

/-- The digit list of a natural number is non-empty. -/
theorem natToDigits_ne_nil (n : Nat) : natToDigits n ≠ [] :=
  natToDigitsAux_ne_nil (n + 1) n (by omega)

/-- Every character of the digit list of a natural number is a digit. -/
theorem natToDigits_all_digit (n : Nat) :
    ∀ c ∈ natToDigits n, c.isDigit = true :=
  natToDigitsAux_all_digit (n + 1) n

/-- Folding the decimal accumulator from zero over the digit list of a
natural number yields the number back. -/
theorem natToDigits_foldl (n : Nat) :
    (natToDigits n).foldl digitStep 0 = n := by
  have h := natToDigitsAux_foldl (n + 1) n 0 (by omega)
  simpa [natToDigits] using h

/-- The textual form of an integer contains no dot. -/
theorem intToText_no_dot (n : Int) : ∀ c ∈ intToText n, c ≠ '.' := by
  intro c hc
  unfold intToText at hc
  split at hc
  · rcases List.mem_cons.mp hc with rfl | hc
    · decide
    · exact (isDigit_ne c (natToDigits_all_digit _ c hc)).1
  · exact (isDigit_ne c (natToDigits_all_digit _ c hc)).1

/-- The digit list is never the empty list, stated on `isEmpty`. -/
theorem natToDigits_isEmpty (n : Nat) : (natToDigits n).isEmpty = false := by
  cases h : natToDigits n with
  | nil => exact absurd h (natToDigits_ne_nil n)
  | cons c cs => rfl

/-- The digit list passes the `all isDigit` test. -/
theorem natToDigits_all (n : Nat) : (natToDigits n).all Char.isDigit = true :=
  List.all_eq_true.mpr (natToDigits_all_digit n)

/-- Stripping the sign from a list headed by a minus sign. -/
theorem splitSign_neg (cs : List Char) : splitSign ('-' :: cs) = (true, cs) := by
  simp [splitSign]

/-- Stripping the sign from a list whose head is neither sign character. -/
theorem splitSign_of_head (c : Char) (cs : List Char) (h1 : c ≠ '-')
    (h2 : c ≠ '+') : splitSign (c :: cs) = (false, c :: cs) := by
  simp [splitSign, h1, h2]

/-- Parsing the canonical text of an in-range integer returns the integer. -/
theorem parseI32_intToText (n : Int) (h1 : -(2 ^ 31) ≤ n)
    (h2 : n ≤ 2 ^ 31 - 1) : parseI32 (intToText n) = some n := by
  rcases lt_or_le n 0 with hn | hn
  · have habs : ((n.natAbs : Int)) = -n := by omega
    rw [intToText, if_pos hn]
    simp only [parseI32, splitSign_neg, natToDigits_isEmpty, natToDigits_all,
      Bool.false_eq_true, if_false, if_true, natToDigits_foldl]
    rw [if_pos (by constructor <;> omega)]
    congr 1
    omega
  · have habs : ((n.natAbs : Int)) = n := by omega
    rw [intToText, if_neg (by omega)]
    obtain ⟨c, cs, hccs⟩ := List.exists_cons_of_ne_nil (natToDigits_ne_nil n.natAbs)
    have hdig : c.isDigit = true := by
      apply natToDigits_all_digit n.natAbs
      rw [hccs]; exact List.mem_cons_self c cs
    have hsplit : splitSign (natToDigits n.natAbs) = (false, natToDigits n.natAbs) := by
      rw [hccs]
      exact splitSign_of_head c cs (isDigit_ne c hdig).2.1 (isDigit_ne c hdig).2.2
    simp only [parseI32, hsplit, natToDigits_isEmpty, natToDigits_all,
      Bool.false_eq_true, if_false, if_true, natToDigits_foldl]
    rw [if_pos (by constructor <;> omega)]
    congr 1

/-- Splitting a dot-free list yields the single chunk. -/
theorem splitDot_no_dot : ∀ l : List Char, (∀ c ∈ l, c ≠ '.') →
    splitDot l = [l] := by
  intro l
  induction l with
  | nil => intro _; rfl
  | cons c cs ih =>
    intro h
    have hc : c ≠ '.' := h c (List.mem_cons_self c cs)
    simp only [splitDot, if_neg hc]
    rw [ih (fun x hx => h x (List.mem_cons_of_mem c hx))]

/-- Splitting past a dot-free prefix peels the prefix off as one chunk. -/
theorem splitDot_append : ∀ l : List Char, ∀ r : List Char,
    (∀ c ∈ l, c ≠ '.') → splitDot (l ++ '.' :: r) = l :: splitDot r := by
  intro l
  induction l with
  | nil =>
    intro r _
    simp [splitDot]
  | cons c cs ih =>
    intro r h
    have hc : c ≠ '.' := h c (List.mem_cons_self c cs)
    simp only [List.cons_append, splitDot, if_neg hc, List.append_eq]
    rw [ih r (fun x hx => h x (List.mem_cons_of_mem c hx))]

/-- The serialized form of a version splits into its three components. -/
theorem splitDot_toText (v : Version) :
    splitDot (toText v) =
      [intToText v.major, intToText v.minor, intToText v.patch] := by
  rw [toText, splitDot_append _ _ (intToText_no_dot _),
    splitDot_append _ _ (intToText_no_dot _),
    splitDot_no_dot _ (intToText_no_dot _)]

/-- C4: for every Version triple of integers in the `i32` range of the Rust
fields, including negative components, parsing the canonical textual form
"major.minor.patch" produced by serialization yields back the identical
triple. -/
theorem version_roundtrip (v : Version)
    (h1 : -(2 ^ 31) ≤ v.major) (h2 : v.major ≤ 2 ^ 31 - 1)
    (h3 : -(2 ^ 31) ≤ v.minor) (h4 : v.minor ≤ 2 ^ 31 - 1)
    (h5 : -(2 ^ 31) ≤ v.patch) (h6 : v.patch ≤ 2 ^ 31 - 1) :
    fromText (toText v) = Except.ok v := by
  simp only [fromText, splitDot_toText, collectParsed,
    parseI32_intToText _ h1 h2, parseI32_intToText _ h3 h4,
    parseI32_intToText _ h5 h6]

/-- Witness for C4 at the concrete version (-1, 0, 2147483647). -/
theorem version_roundtrip_witness :
    fromText (toText ⟨-1, 0, 2147483647⟩) = Except.ok ⟨-1, 0, 2147483647⟩ :=
  version_roundtrip ⟨-1, 0, 2147483647⟩ (by decide) (by decide) (by decide)
    (by decide) (by decide) (by decide)

/-- Chunk-wise parse collection succeeds exactly when every chunk parses. -/
theorem collectParsed_isSome : ∀ l, (collectParsed l).isSome = true ↔
    ∀ c ∈ l, (parseI32 c).isSome = true := by
  intro l
  induction l with
  | nil => simp [collectParsed]
  | cons c cs ih =>
    simp only [collectParsed]
    cases hc : parseI32 c with
    | none => simp [hc]
    | some v =>
      cases hcs : collectParsed cs with
      | none =>
        rw [hcs] at ih
        simp only [Option.isSome_none, Bool.false_eq_true, false_iff] at ih
        simp [ih, hc]
      | some vs =>
        rw [hcs] at ih
        simp only [Option.isSome_some, true_iff] at ih
        simp only [Option.isSome_some, true_iff, List.forall_mem_cons]
        exact ⟨by simp [hc], ih⟩

/-- Chunk-wise parse collection preserves the number of chunks. -/
theorem collectParsed_length : ∀ l r, collectParsed l = some r →
    r.length = l.length := by
  intro l
  induction l with
  | nil =>
    intro r h
    simp only [collectParsed, Option.some.injEq] at h
    subst h
    rfl
  | cons c cs ih =>
    intro r h
    simp only [collectParsed] at h
    cases hc : parseI32 c with
    | none => rw [hc] at h; exact absurd h (by simp)
    | some v =>
      rw [hc] at h
      cases hcs : collectParsed cs with
      | none => rw [hcs] at h; exact absurd h (by simp)
      | some vs =>
        rw [hcs] at h
        simp only [Option.some.injEq] at h
        subst h
        simp [ih vs hcs]

/-- C5: parsing a Version from text returns a ParseError, not a Version, for
every input that does not consist of exactly three dot-separated components
each parsing as an integer, and succeeds for every input that does. -/
theorem fromText_ok_iff (s : List Char) :
    (∃ v, fromText s = Except.ok v) ↔
      ((splitDot s).length = 3 ∧
        ∀ c ∈ splitDot s, (parseI32 c).isSome = true) := by
  cases h : collectParsed (splitDot s) with
  | none =>
    have hall : ¬ ∀ c ∈ splitDot s, (parseI32 c).isSome = true := by
      rw [← collectParsed_isSome, h]
      simp
    simp only [fromText, h]
    simp [hall]
  | some r =>
    have hlen := collectParsed_length _ r h
    have hall : ∀ c ∈ splitDot s, (parseI32 c).isSome = true := by
      rw [← collectParsed_isSome, h]
      rfl
    simp only [fromText, h]
    rcases r with _ | ⟨a, _ | ⟨b, _ | ⟨c, _ | d⟩⟩⟩ <;> simp_all <;> omega

/-- Folding the sample-map build over a list prepends the reversed entry
list onto the initial map. -/
theorem m_samples_foldl : ∀ (l : List Sample)
    (init : List ((String × String) × (ℚ × Int))),
    l.foldl (fun m x => ((x.project, x.metric), (x.value, x.ts)) :: m) init =
      (l.map (fun x => ((x.project, x.metric), (x.value, x.ts)))).reverse ++ init := by
  intro l
  induction l with
  | nil => intro init; rfl
  | cons x xs ih =>
    intro init
    simp [ih]

/-- Looking a key up in the built sample map returns the value and timestamp
of the last sample with that key in iteration order. -/
theorem hmGet_m_samples (l : List Sample) (k : String × String) :
    hmGet (m_samples l) k =
      (l.reverse.find? (fun s => (s.project, s.metric) == k)).map
        (fun s => (s.value, s.ts)) := by
  rw [m_samples, m_samples_foldl, List.append_nil, hmGet, ← List.map_reverse,
    List.find?_map, Option.map_map]
  rfl

/-- The sample-map lookup succeeds exactly when some sample has the key. -/
theorem hmGet_isSome_any (l : List Sample) (k : String × String) :
    (hmGet (m_samples l) k).isSome =
      l.any (fun s => (s.project, s.metric) == k) := by
  rw [hmGet_m_samples]
  cases hf : l.reverse.find? (fun s => (s.project, s.metric) == k) with
  | none =>
    rw [List.find?_eq_none] at hf
    have : ¬ ∃ s ∈ l, ((s.project, s.metric) == k) = true := by
      rintro ⟨s, hs, hk⟩
      exact hf s (List.mem_reverse.mpr hs) hk
    simp only [Option.map_none', Option.isSome_none]
    symm
    rw [← Bool.not_eq_true, List.any_eq_true]
    exact this
  | some s =>
    have hk := List.find?_some hf
    have hs := List.mem_reverse.mp (List.mem_of_find?_eq_some hf)
    simp only [Option.map_some', Option.isSome_some]
    symm
    rw [List.any_eq_true]
    exact ⟨s, hs, hk⟩

/-- Mapping any per-metric field extractor over the calculator output gives
the corresponding extractor mapped over the matched baseline metrics. -/
theorem filterMap_calc_map {β : Type} (f : Calculation → β)
    (g : BaselineMetric → β)
    (hfg : ∀ ver sigma m v t, f (calcOne ver sigma m v t) = g m) :
    ∀ (L : List BaselineMetric) (ver : Version) (sigma : ℚ)
      (look : String × String → Option (ℚ × Int)),
    (L.filterMap (fun metric => (look (metric.project, metric.metric)).map
        (fun vt => calcOne ver sigma metric vt.1 vt.2))).map f =
      (L.filter (fun m => (look (m.project, m.metric)).isSome)).map g := by
  intro L
  induction L with
  | nil => intros; rfl
  | cons m ms ih =>
    intro ver sigma look
    rw [List.filterMap_cons, List.filter_cons]
    cases hg : look (m.project, m.metric) with
    | none => simpa using ih ver sigma look
    | some vt =>
      simp only [Option.map_some', Option.isSome_some, if_true, List.map_cons,
        hfg]
      rw [ih ver sigma look]

/-- C1: for every matched (project, metric) pair, `calculate_regressions`
computes the threshold as mean + sigma * stddev from the baseline's
measurement and sets the regression flag to true exactly when the sample's
value is strictly greater than the threshold; equality yields false. -/
theorem calc_threshold_strict (samples : List Sample) (b : Baseline)
    (sigma : ℚ) (c : Calculation)
    (hc : c ∈ calculate_regressions samples b sigma) :
    ∃ m ∈ b.metrics, ∃ value ts,
      hmGet (m_samples samples) (m.project, m.metric) = some (value, ts) ∧
      c.mean = m.measurement.mean ∧ c.stddev = m.measurement.stddev ∧
      c.sigma = sigma ∧
      c.threshold = m.measurement.mean + sigma * m.measurement.stddev ∧
      (c.regression = true ↔ value > c.threshold) ∧
      (value = c.threshold → c.regression = false) := by
  simp only [calculate_regressions, List.mem_filterMap] at hc
  obtain ⟨m, hm, hmap⟩ := hc
  rw [Option.map_eq_some'] at hmap
  obtain ⟨vt, hvt, hcalc⟩ := hmap
  refine ⟨m, hm, vt.1, vt.2, by simpa using hvt, ?_⟩
  subst hcalc
  refine ⟨rfl, rfl, rfl, rfl, by simp [calcOne], fun hveq => ?_⟩
  simp only [calcOne] at hveq ⊢
  rw [hveq, decide_eq_false_iff_not]
  exact lt_irrefl _

/-- Witness for C1: the repository's own 3-sigma scenario, sample value 1.31
against mean 1.00, stddev 0.1 and sigma 3. -/
theorem calc_threshold_strict_witness :
    (⟨⟨9, 9, 9⟩, "test", "m", true, 7, 3, 1, 1/10, 13/10⟩ : Calculation) ∈
        calculate_regressions [exSample] exBaseline 3 ∧
      ∃ m ∈ exBaseline.metrics, ∃ value ts,
        hmGet (m_samples [exSample]) (m.project, m.metric) = some (value, ts) ∧
        (⟨⟨9, 9, 9⟩, "test", "m", true, 7, 3, 1, 1/10, 13/10⟩ : Calculation).mean
            = m.measurement.mean ∧
        (⟨⟨9, 9, 9⟩, "test", "m", true, 7, 3, 1, 1/10, 13/10⟩ : Calculation).stddev
            = m.measurement.stddev ∧
        (⟨⟨9, 9, 9⟩, "test", "m", true, 7, 3, 1, 1/10, 13/10⟩ : Calculation).sigma
            = 3 ∧
        (⟨⟨9, 9, 9⟩, "test", "m", true, 7, 3, 1, 1/10, 13/10⟩ : Calculation).threshold
            = m.measurement.mean + 3 * m.measurement.stddev ∧
        ((⟨⟨9, 9, 9⟩, "test", "m", true, 7, 3, 1, 1/10, 13/10⟩ : Calculation).regression
            = true ↔ value >
          (⟨⟨9, 9, 9⟩, "test", "m", true, 7, 3, 1, 1/10, 13/10⟩ : Calculation).threshold) ∧
        (value =
            (⟨⟨9, 9, 9⟩, "test", "m", true, 7, 3, 1, 1/10, 13/10⟩ : Calculation).threshold →
          (⟨⟨9, 9, 9⟩, "test", "m", true, 7, 3, 1, 1/10, 13/10⟩ : Calculation).regression
            = false) :=
  ⟨by with_unfolding_all decide,
    calc_threshold_strict [exSample] exBaseline 3 _ (by with_unfolding_all decide)⟩

/-- C2: the calculator emits exactly one Calculation per baseline metric
whose (project, metric) key occurs among the samples, in the iteration order
of the baseline's metric collection; unmatched baseline metrics and
unmatched samples produce nothing, and the function is total (no error). -/
theorem calc_output_keys (samples : List Sample) (b : Baseline) (sigma : ℚ) :
    (calculate_regressions samples b sigma).map (fun c => (c.project, c.metric)) =
      (b.metrics.filter (fun m =>
        samples.any (fun s => (s.project, s.metric) == (m.project, m.metric)))).map
        (fun m => (m.project, m.metric)) := by
  simp only [calculate_regressions]
  rw [filterMap_calc_map (fun c => (c.project, c.metric))
    (fun m => (m.project, m.metric)) (fun ver sigma m v t => rfl) b.metrics
    b.version sigma (hmGet (m_samples samples))]
  congr 1
  apply List.filter_congr
  intro m _
  exact hmGet_isSome_any samples (m.project, m.metric)

/-- C8: when several samples share a (project, metric) key, the lookup map
built by `calculate_regressions` holds the (value, ts) of the sample
occurring latest in iteration order, with no error. -/
theorem m_samples_last_wins (pre post : List Sample) (s : Sample)
    (h : ∀ t ∈ post, (t.project, t.metric) ≠ (s.project, s.metric)) :
    hmGet (m_samples (pre ++ s :: post)) (s.project, s.metric) =
      some (s.value, s.ts) := by
  rw [hmGet_m_samples, List.reverse_append, List.reverse_cons]
  have hnone : post.reverse.find?
      (fun t => (t.project, t.metric) == (s.project, s.metric)) = none := by
    rw [List.find?_eq_none]
    intro t ht
    simp only [beq_iff_eq]
    exact h t (List.mem_reverse.mp ht)
  rw [List.find?_append, List.find?_append, hnone]
  simp

/-- Witness for C8: the value of the later duplicate-keyed sample is the
one returned by the lookup. -/
theorem m_samples_last_wins_witness :
    (∀ t ∈ [exSampleB], (t.project, t.metric) ≠ (exSample.project, exSample.metric)) ∧
      hmGet (m_samples ([exSample50] ++ exSample :: [exSampleB]))
        (exSample.project, exSample.metric) = some (exSample.value, exSample.ts) :=
  ⟨by decide, m_samples_last_wins [exSample50] [exSampleB] exSample (by decide)⟩

/-- Counterexample to C9: with two baseline metrics sharing the key
("test", "m") and one matching sample, the calculator emits two
Calculations, one per duplicate entry with that entry's own statistics,
rather than honoring only one of the entries. -/
theorem dup_key_counterexample :
    (calculate_regressions [exSample50] exDupBaseline 3).length = 2 ∧
      (calculate_regressions [exSample50] exDupBaseline 3).map
          (fun c => (c.mean, c.regression)) = [(1, true), (100, false)] := by
  with_unfolding_all decide

/-- C9 amended: when a Baseline contains several BaselineMetric entries
with the same (project, metric) key, the calculator honors every duplicate
entry, producing one Calculation per entry computed from that entry's own
statistics. -/
theorem calc_dup_keys_per_entry (samples : List Sample) (b : Baseline)
    (sigma : ℚ) :
    (calculate_regressions samples b sigma).map
        (fun c => (c.project, c.metric, c.mean, c.stddev)) =
      (b.metrics.filter (fun m =>
        (hmGet (m_samples samples) (m.project, m.metric)).isSome)).map
        (fun m => (m.project, m.metric, m.measurement.mean, m.measurement.stddev)) := by
  simp only [calculate_regressions]
  exact filterMap_calc_map _ _ (fun ver sigma m v t => rfl) b.metrics
    b.version sigma _

/-- Among samples with pairwise-distinct keys, a key determines the sample. -/
theorem key_unique_of_pairwise :
    ∀ l : List Sample,
    l.Pairwise (fun a b => (a.project, a.metric) ≠ (b.project, b.metric)) →
    ∀ x ∈ l, ∀ y ∈ l, (x.project, x.metric) = (y.project, y.metric) → x = y := by
  intro l
  induction l with
  | nil =>
    intro _ x hx
    cases hx
  | cons a t ih =>
    intro hl x hx y hy hk
    rw [List.pairwise_cons] at hl
    rcases List.mem_cons.mp hx with rfl | hx'
    · rcases List.mem_cons.mp hy with rfl | hy'
      · rfl
      · exact absurd hk (hl.1 y hy')
    · rcases List.mem_cons.mp hy with rfl | hy'
      · exact absurd hk.symm (hl.1 x hx')
      · exact ih hl.2 x hx' y hy' hk

/-- Under pairwise-distinct keys, `find?` by key returns any member that
has the key. -/
theorem find?_eq_of_mem_unique :
    ∀ (l : List Sample) (k : String × String),
    l.Pairwise (fun a b => (a.project, a.metric) ≠ (b.project, b.metric)) →
    ∀ x ∈ l, ((x.project, x.metric) == k) = true →
    l.find? (fun s => (s.project, s.metric) == k) = some x := by
  intro l k
  induction l with
  | nil =>
    intro _ x hx
    cases hx
  | cons a t ih =>
    intro hl x hx hxk
    have huniq := key_unique_of_pairwise (a :: t) hl
    rw [List.pairwise_cons] at hl
    cases hak : ((a.project, a.metric) == k) with
    | true =>
      rw [List.find?_cons_of_pos t
        (show (fun s : Sample => (s.project, s.metric) == k) a = true from hak)]
      have hx' : x = a := by
        apply huniq x hx a (List.mem_cons_self a t)
        rw [beq_iff_eq] at hak hxk
        rw [hxk, hak]
      rw [hx']
    | false =>
      rw [List.find?_cons_of_neg t
        (show ¬ (fun s : Sample => (s.project, s.metric) == k) a = true from by
          simp [hak])]
      rcases List.mem_cons.mp hx with rfl | hx'
      · rw [hak] at hxk
        cases hxk
      · exact ih hl.2 x hx' hxk

/-- Under a permutation of distinct-keyed samples, every lookup in the
built sample map agrees. -/
theorem hmGet_perm (l1 l2 : List Sample) (hperm : l1.Perm l2)
    (hdist : l1.Pairwise (fun a b => (a.project, a.metric) ≠ (b.project, b.metric)))
    (k : String × String) :
    hmGet (m_samples l1) k = hmGet (m_samples l2) k := by
  have hdist2 : l2.Pairwise
      (fun a b => (a.project, a.metric) ≠ (b.project, b.metric)) :=
    (hperm.pairwise_iff (fun h => h.symm)).mp hdist
  have hd2rev : l2.reverse.Pairwise
      (fun a b => (a.project, a.metric) ≠ (b.project, b.metric)) :=
    List.pairwise_reverse.mpr (hdist2.imp (fun h => h.symm))
  rw [hmGet_m_samples, hmGet_m_samples]
  cases h1 : l1.reverse.find? (fun s => (s.project, s.metric) == k) with
  | none =>
    have h2 : l2.reverse.find? (fun s => (s.project, s.metric) == k) = none := by
      rw [List.find?_eq_none] at h1 ⊢
      intro x hx
      exact h1 x (List.mem_reverse.mpr (hperm.mem_iff.mpr (List.mem_reverse.mp hx)))
    rw [h2]
  | some x =>
    have hxk := List.find?_some h1
    have hx1 : x ∈ l1 := List.mem_reverse.mp (List.mem_of_find?_eq_some h1)
    have hx2 : x ∈ l2.reverse := List.mem_reverse.mpr (hperm.mem_iff.mp hx1)
    rw [find?_eq_of_mem_unique l2.reverse k hd2rev x hx2 hxk]

/-- C10: for any two sample sequences that are permutations of each other
with pairwise-distinct (project, metric) keys, the calculator returns
exactly equal outputs. -/
theorem calc_perm_invariant (l1 l2 : List Sample) (b : Baseline) (sigma : ℚ)
    (hperm : l1.Perm l2)
    (hdist : l1.Pairwise (fun a b => (a.project, a.metric) ≠ (b.project, b.metric))) :
    calculate_regressions l1 b sigma = calculate_regressions l2 b sigma := by
  simp only [calculate_regressions]
  apply List.filterMap_congr
  intro m _
  rw [hmGet_perm l1 l2 hperm hdist (m.project, m.metric)]

/-- Witness for C10: swapping two distinct-keyed samples leaves the output
unchanged. -/
theorem calc_perm_invariant_witness :
    calculate_regressions [exSampleB, exSample] exBaseline 3 =
      calculate_regressions [exSample, exSampleB] exBaseline 3 :=
  calc_perm_invariant [exSampleB, exSample] [exSample, exSampleB] exBaseline 3
    (List.Perm.swap exSample exSampleB []) (by decide)

/-- The selection fold yields an element whose version dominates the
accumulator and every list element, and that element is the first member of
the accumulator-plus-list sequence attaining its version. -/
theorem selFold_char :
    ∀ (l : List Baseline) (mx : Baseline),
      (∀ y ∈ l, vle y.version (selFold mx l).version = true) ∧
      vle mx.version (selFold mx l).version = true ∧
      (mx :: l).find? (fun y => vle (selFold mx l).version y.version) =
        some (selFold mx l) := by
  intro l
  induction l with
  | nil =>
    intro mx
    have hvv : vle mx.version mx.version = true := by simp [vle]
    refine ⟨by simp, by simp [selFold, vle], ?_⟩
    simp only [selFold, List.foldl_nil]
    simp [List.find?_cons, hvv]
  | cons y ys ih =>
    intro mx
    have hstep : selFold mx (y :: ys) =
        selFold (if vle y.version mx.version then mx else y) ys := rfl
    cases hc : vle y.version mx.version with
    | true =>
      have hsf : selFold mx (y :: ys) = selFold mx ys := by
        rw [hstep, hc]
        simp
      obtain ⟨ih1, ih2, ih3⟩ := ih mx
      rw [hsf]
      refine ⟨?_, ih2, ?_⟩
      · intro z hz
        rcases List.mem_cons.mp hz with rfl | hz'
        · have h2 := ih2
          simp only [vle, decide_eq_true_eq] at hc h2 ⊢
          omega
        · exact ih1 z hz'
      · cases hpm : vle (selFold mx ys).version mx.version with
        | true =>
          simp only [List.find?_cons, hpm] at ih3 ⊢
          exact ih3
        | false =>
          have hpy : vle (selFold mx ys).version y.version = false := by
            cases hpy : vle (selFold mx ys).version y.version with
            | false => rfl
            | true =>
              exfalso
              have h2 := hpm
              simp only [vle, decide_eq_true_eq] at hpy hc
              simp only [vle, decide_eq_false_iff_not, decide_eq_true_eq] at h2
              omega
          simp only [List.find?_cons, hpm, hpy] at ih3 ⊢
          exact ih3
    | false =>
      have hsf : selFold mx (y :: ys) = selFold y ys := by
        rw [hstep, hc]
        simp
      obtain ⟨ih1, ih2, ih3⟩ := ih y
      rw [hsf]
      have hmxy : vle mx.version y.version = true := by
        simp only [vle, decide_eq_false_iff_not, decide_eq_true_eq] at hc
        simp only [vle, decide_eq_true_eq]
        omega
      refine ⟨?_, ?_, ?_⟩
      · intro z hz
        rcases List.mem_cons.mp hz with rfl | hz'
        · exact ih2
        · exact ih1 z hz'
      · have h2 := ih2
        simp only [vle, decide_eq_true_eq] at hmxy h2 ⊢
        omega
      · have hpm : vle (selFold y ys).version mx.version = false := by
          cases hpm : vle (selFold y ys).version mx.version with
          | false => rfl
          | true =>
            exfalso
            have h2 := ih2
            have hc' := hc
            simp only [vle, decide_eq_true_eq] at hpm hmxy h2
            simp only [vle, decide_eq_false_iff_not, decide_eq_true_eq] at hc'
            omega
        rw [List.find?_cons, hpm]
        exact ih3

/-- C3: on a non-empty collection, baseline selection returns the record
whose Version is maximal under the lexicographic order, and on ties the
record occurring earliest in input order (it is the first list element whose
version dominates the selected version). -/
theorem selectBaseline_spec (l : List Baseline) (hne : l ≠ []) :
    ∃ b, selectBaseline l = RunResult.ok b ∧ b ∈ l ∧
      (∀ y ∈ l, vle y.version b.version = true) ∧
      l.find? (fun y => vle b.version y.version) = some b := by
  obtain ⟨x, rest, rfl⟩ := List.exists_cons_of_ne_nil hne
  obtain ⟨h1, _, h3⟩ := selFold_char (x :: rest) x
  have hfind : (x :: rest).find?
      (fun y => vle (selFold x (x :: rest)).version y.version) =
        some (selFold x (x :: rest)) := by
    cases hpx : vle (selFold x (x :: rest)).version x.version with
    | true =>
      simp only [List.find?_cons, hpx] at h3 ⊢
      exact h3
    | false =>
      simp only [List.find?_cons, hpx] at h3 ⊢
      exact h3
  exact ⟨selFold x (x :: rest), rfl, List.mem_of_find?_eq_some hfind, h1, hfind⟩

/-- Witness for C3: selecting over versions 1.0.0, 2.0.0, 1.9.9 picks the
2.0.0 record. -/
theorem selectBaseline_spec_witness :
    ([exB100, exB200, exB199] : List Baseline) ≠ [] ∧
      ∃ b, selectBaseline [exB100, exB200, exB199] = RunResult.ok b ∧
        b ∈ [exB100, exB200, exB199] ∧
        (∀ y ∈ [exB100, exB200, exB199], vle y.version b.version = true) ∧
        List.find? (fun y => vle b.version y.version) [exB100, exB200, exB199]
          = some b :=
  ⟨List.cons_ne_nil _ _, selectBaseline_spec [exB100, exB200, exB199]
    (List.cons_ne_nil _ _)⟩

/-- C6 evaluation: `Sample::from_measurement` panics (process abort) on a
measurement with zero or with two raw timings instead of returning a
recoverable MalformedMeasurementError; a single timing succeeds with that
timing as the value. -/
theorem from_measurement_behavior :
    from_measurement "p" "m" 0 { exMeasurement with times := [] } =
        RunResult.aborted "found a sample with no measurement" ∧
      from_measurement "p" "m" 0 { exMeasurement with times := [1, 2] } =
        RunResult.aborted "found a sample with too many measurements!" ∧
      from_measurement "p" "m" 0 { exMeasurement with times := [1] } =
        RunResult.ok { project := "p", metric := "m", value := 1, ts := 0 } :=
  ⟨rfl, rfl, rfl⟩

/-- C7 evaluation: baseline selection over an empty collection panics
(process abort) with "no baselines found in dir" instead of returning a
recoverable ConfigurationError. -/
theorem selectBaseline_empty_behavior :
    selectBaseline [] = RunResult.aborted "no baselines found in dir" := rfl

end DbtPerf
